import Mathlib

/-!
Verification of the shared voting queue of the PlayIt repository
(`src/lib/votingQueue.ts` and the HTTP route handlers under
`src/app/api/queue/`).

The queue lives in a key-value store under one key; we model the stored
value as `Option VotingQueueState` (`none` = key absent).  Every call to
`Date.now()` made during one operation is modelled by the parameter
`now : Nat`; the `Math.random().toString(36).slice(2, 7)` suffix used by
the bulk add is modelled by a function `rand : Nat → String` indexed by
the number of tracks admitted so far in the call.  Each operation returns
its result paired with the store after the operation (reads never write;
`setState` is modelled by returning `some newState`).
-/

/-- The `QueuedTrack` record, from `src/lib/votingQueue.ts`. -/
structure QueuedTrack where
  id : String
  spotifyId : String
  name : String
  artists : String
  albumName : String
  albumArt : Option String
  duration_ms : Nat
  votes : Nat
  addedAt : Nat
  addedBy : Option String
deriving DecidableEq

/-- The `VotingQueueState` record, from `src/lib/votingQueue.ts`. -/
structure VotingQueueState where
  tracks : List QueuedTrack
  lastUpdated : Nat
deriving DecidableEq

/-- The argument type of `addTrack`/`addTracks`:
`Omit<QueuedTrack, "votes" | "addedAt" | "id">`. -/
structure TrackInput where
  spotifyId : String
  name : String
  artists : String
  albumName : String
  albumArt : Option String
  duration_ms : Nat
  addedBy : Option String
deriving DecidableEq

/-- Model of `getState`: `(await kv.get(QUEUE_KEY)) ?? { tracks: [], lastUpdated: Date.now() }`. -/
def getState (store : Option VotingQueueState) (now : Nat) : VotingQueueState :=
  store.getD { tracks := [], lastUpdated := now }

/-- The track list currently held in the store (empty when the key is absent). -/
def stateTracks (store : Option VotingQueueState) : List QueuedTrack :=
  (getState store 0).tracks

/-- The `lastUpdated` stamp currently held in the store (`now` when the key is absent). -/
def stateStamp (store : Option VotingQueueState) (now : Nat) : Nat :=
  (getState store now).lastUpdated

/-- One step of `[...state.tracks].sort((a, b) => b.votes - a.votes)`:
inserting `a` into an already sorted list, keeping `a` (the element that came
earlier in the input) before every element with `votes ≤ a.votes`.  ECMAScript
guarantees `Array.prototype.sort` is stable, so this pins down the result. -/
def insertTrack (a : QueuedTrack) : List QueuedTrack → List QueuedTrack
  | [] => [a]
  | b :: rest => if a.votes < b.votes then b :: insertTrack a rest else a :: b :: rest

/-- The stable sort by `votes` descending performed on every read. -/
def sortByVotesDesc : List QueuedTrack → List QueuedTrack
  | [] => []
  | a :: rest => insertTrack a (sortByVotesDesc rest)

/-- Model of `getQueue`: returns a sorted copy; never writes. -/
def getQueue (now : Nat) (store : Option VotingQueueState) :
    VotingQueueState × Option VotingQueueState :=
  let state := getState store now
  ({ tracks := sortByVotesDesc state.tracks, lastUpdated := state.lastUpdated }, store)

/-- Model of `getQueueIfUpdated(since)`: the sorted state if `lastUpdated > since`, else `null`. -/
def getQueueIfUpdated (since : Nat) (now : Nat) (store : Option VotingQueueState) :
    Option VotingQueueState × Option VotingQueueState :=
  let state := getState store now
  if since < state.lastUpdated then
    (some { tracks := sortByVotesDesc state.tracks, lastUpdated := state.lastUpdated }, store)
  else
    (none, store)

/-- Builds the `QueuedTrack` admitted for input `t` (spread plus `id`, `votes: 0`,
`addedAt: Date.now()`). -/
def mkQueuedTrack (t : TrackInput) (trackId : String) (now : Nat) : QueuedTrack :=
  { id := trackId, spotifyId := t.spotifyId, name := t.name, artists := t.artists,
    albumName := t.albumName, albumArt := t.albumArt, duration_ms := t.duration_ms,
    votes := 0, addedAt := now, addedBy := t.addedBy }

/-- Model of `addTrack`: reject a duplicate `spotifyId`, then reject at capacity 30,
else append the new track, stamp `lastUpdated`, and write. -/
def addTrack (track : TrackInput) (now : Nat) (store : Option VotingQueueState) :
    Option QueuedTrack × Option VotingQueueState :=
  let state := getState store now
  if state.tracks.any fun t => t.spotifyId == track.spotifyId then
    (none, store)
  else if 30 ≤ state.tracks.length then
    (none, store)
  else
    let newTrack := mkQueuedTrack track (track.spotifyId ++ "-" ++ toString now) now
    (some newTrack,
      some { tracks := state.tracks ++ [newTrack], lastUpdated := now })

/-- The `for (const track of tracks)` loop of `addTracks`: `break` at capacity,
`continue` on a `spotifyId` already in `existingIds`, otherwise push the new
track, record its `spotifyId`, and push it onto the admitted list.  Returns
(final `state.tracks`, `addedTracks`). -/
def addTracksGo (now : Nat) (rand : Nat → String) :
    List TrackInput → Nat → List QueuedTrack → List String →
    List QueuedTrack × List QueuedTrack
  | [], _, tracks, _ => (tracks, [])
  | t :: rest, k, tracks, existing =>
    if 30 ≤ tracks.length then (tracks, [])
    else if t.spotifyId ∈ existing then addTracksGo now rand rest k tracks existing
    else
      let nt := mkQueuedTrack t (t.spotifyId ++ "-" ++ toString now ++ "-" ++ rand k) now
      let res := addTracksGo now rand rest (k + 1) (tracks ++ [nt]) (t.spotifyId :: existing)
      (res.1, nt :: res.2)

/-- Model of `addTracks(tracks, replaceAll)`: optionally clear first, admit in order
(skipping duplicates, stopping at capacity), then unconditionally stamp
`lastUpdated` and write even if nothing was admitted. -/
def addTracks (inputs : List TrackInput) (replaceAll : Bool) (now : Nat)
    (rand : Nat → String) (store : Option VotingQueueState) :
    List QueuedTrack × Option VotingQueueState :=
  let state := getState store now
  let tracks0 := if replaceAll then [] else state.tracks
  let res := addTracksGo now rand inputs 0 tracks0 (tracks0.map fun t => t.spotifyId)
  (res.2, some { tracks := res.1, lastUpdated := now })

/-- Model of `removeTrack(spotifyId)`: filter out every track with that `spotifyId`;
write and return `true` only when the length changed. -/
def removeTrack (spotifyId : String) (now : Nat) (store : Option VotingQueueState) :
    Bool × Option VotingQueueState :=
  let state := getState store now
  let kept := state.tracks.filter fun t => t.spotifyId != spotifyId
  if kept.length ≠ state.tracks.length then
    (true, some { tracks := kept, lastUpdated := now })
  else
    (false, store)

/-- Model of `removeTracks(trackIds)`: filter out every track whose internal `id` is in
the set; write only when the removed count is positive. -/
def removeTracks (trackIds : List String) (now : Nat) (store : Option VotingQueueState) :
    Nat × Option VotingQueueState :=
  let state := getState store now
  let kept := state.tracks.filter fun t => !(trackIds.contains t.id)
  let removedCount := state.tracks.length - kept.length
  if 0 < removedCount then
    (removedCount, some { tracks := kept, lastUpdated := now })
  else
    (removedCount, store)

/-- Model of `state.tracks.find(...)` followed by the in-place `track.votes += 1`:
returns the updated first match together with the updated list. -/
def upvoteFirst (spotifyId : String) : List QueuedTrack →
    Option (QueuedTrack × List QueuedTrack)
  | [] => none
  | t :: rest =>
    if t.spotifyId = spotifyId then
      some ({ t with votes := t.votes + 1 }, { t with votes := t.votes + 1 } :: rest)
    else
      match upvoteFirst spotifyId rest with
      | none => none
      | some (u, rest1) => some (u, t :: rest1)

/-- Model of `upvoteTrack(spotifyId)`: bump the first matching track's `votes`, stamp
`lastUpdated`, write, and return the updated track; `null` when absent. -/
def upvoteTrack (spotifyId : String) (now : Nat) (store : Option VotingQueueState) :
    Option QueuedTrack × Option VotingQueueState :=
  let state := getState store now
  match upvoteFirst spotifyId state.tracks with
  | none => (none, store)
  | some (u, tracks1) =>
    (some u, some { tracks := tracks1, lastUpdated := now })

/-- Model of `clearQueue()`: writes `{ tracks: [], lastUpdated: Date.now() }` without
reading the previous state. -/
def clearQueue (now : Nat) (_store : Option VotingQueueState) : Option VotingQueueState :=
  some { tracks := [], lastUpdated := now }

/-- One admission operation, for stating invariants over arbitrary sequences. -/
inductive AdmissionOp where
  | one (t : TrackInput) (now : Nat)
  | many (ts : List TrackInput) (replaceAll : Bool) (now : Nat) (rand : Nat → String)

/-- Apply one admission to the store, keeping only the resulting store. -/
def applyAdmission (store : Option VotingQueueState) : AdmissionOp → Option VotingQueueState
  | .one t now => (addTrack t now store).2
  | .many ts replaceAll now rand => (addTracks ts replaceAll now rand store).2

/-- Run a sequence of admissions left to right. -/
def runAdmissions (ops : List AdmissionOp) (store : Option VotingQueueState) :
    Option VotingQueueState :=
  ops.foldl applyAdmission store

/-- The queue holds at most one entry per `spotifyId`. -/
def uniqueBySpotifyId (ts : List QueuedTrack) : Prop :=
  (ts.map fun t => t.spotifyId).Nodup

/-- The request body of `POST /api/queue`: `body.tracks` being an array (even
an empty one — an empty array is truthy in JavaScript) selects the bulk
branch; otherwise a present `body.spotifyId` selects the single-add branch. -/
inductive QueuePostBody where
  | withTracks (tracks : List TrackInput) (replaceAll : Bool)
  | withSpotifyId (t : TrackInput)
  | invalid

/-- Handler `POST /api/queue` (`src/app/api/queue/route.ts`): returns the HTTP status
and the store after the call. -/
def postQueue (body : QueuePostBody) (now : Nat) (rand : Nat → String)
    (store : Option VotingQueueState) : Nat × Option VotingQueueState :=
  match body with
  | .withTracks ts replaceAll => (200, (addTracks ts replaceAll now rand store).2)
  | .withSpotifyId t =>
    match addTrack t now store with
    | (none, store1) => (400, store1)
    | (some _, store1) => (200, store1)
  | .invalid => (400, store)

/-- Handler `POST /api/queue/remove` (`src/app/api/queue/remove/route.ts`): `none`
models a missing or non-array `trackIds`; an empty array is rejected with 400
before `removeTracks` is called. -/
def postQueueRemove (trackIds : Option (List String)) (now : Nat)
    (store : Option VotingQueueState) : Nat × Option VotingQueueState :=
  match trackIds with
  | none => (400, store)
  | some ids =>
    if ids.length = 0 then (400, store)
    else (200, (removeTracks ids now store).2)

/-! ## Sample data for witnesses and counterexamples -/

/-- A concrete admission input. -/
def sampleInput (s : String) : TrackInput :=
  { spotifyId := s, name := s, artists := "artist", albumName := "album",
    albumArt := none, duration_ms := 200, addedBy := none }

/-- A concrete queued track with a given `spotifyId` and vote count. -/
def sampleTrack (s : String) (v : Nat) : QueuedTrack :=
  { id := s ++ "-id", spotifyId := s, name := s, artists := "artist",
    albumName := "album", albumArt := none, duration_ms := 200, votes := v,
    addedAt := 0, addedBy := none }

/-- Two distinct entries that share one `spotifyId` (a state the add API never
produces, but a representable queue state). -/
def dupTrackA : QueuedTrack := sampleTrack "dup" 0

/-- Second entry with the same `spotifyId` as `dupTrackA` but another `id`. -/
def dupTrackB : QueuedTrack := { sampleTrack "dup" 1 with id := "dup-id2" }

/-- A queue filled to the capacity of 30 distinct tracks. -/
def fullTracks : List QueuedTrack :=
  (List.range 30).map fun i => sampleTrack (toString i) 0

/-! ## Helper lemmas -/

theorem getState_tracks (store : Option VotingQueueState) (now : Nat) :
    (getState store now).tracks = stateTracks store := by
  cases store <;> rfl

theorem stateTracks_some (s : VotingQueueState) : stateTracks (some s) = s.tracks := rfl

theorem stateTracks_none : stateTracks none = [] := rfl

theorem mem_insertTrack (x a : QueuedTrack) (l : List QueuedTrack) :
    x ∈ insertTrack a l ↔ x = a ∨ x ∈ l := by
  induction l with
  | nil => simp [insertTrack]
  | cons b rest ih =>
    simp only [insertTrack]
    split
    · simp only [List.mem_cons, ih]
      tauto
    · simp [List.mem_cons]

theorem pairwise_insertTrack (a : QueuedTrack) (l : List QueuedTrack)
    (h : l.Pairwise fun x y => y.votes ≤ x.votes) :
    (insertTrack a l).Pairwise fun x y => y.votes ≤ x.votes := by
  induction l with
  | nil => simp [insertTrack]
  | cons b rest ih =>
    rw [List.pairwise_cons] at h
    simp only [insertTrack]
    split
    · rename_i hlt
      rw [List.pairwise_cons]
      refine ⟨fun x hx => ?_, ih h.2⟩
      rcases (mem_insertTrack x a rest).mp hx with rfl | hx
      · exact Nat.le_of_lt hlt
      · exact h.1 x hx
    · rename_i hge
      rw [List.pairwise_cons]
      refine ⟨fun x hx => ?_, List.pairwise_cons.mpr h⟩
      rcases List.mem_cons.mp hx with rfl | hx
      · exact Nat.le_of_not_lt hge
      · exact Nat.le_trans (h.1 x hx) (Nat.le_of_not_lt hge)

theorem perm_insertTrack (a : QueuedTrack) (l : List QueuedTrack) :
    (insertTrack a l).Perm (a :: l) := by
  induction l with
  | nil => simp [insertTrack]
  | cons b rest ih =>
    simp only [insertTrack]
    split
    · exact (ih.cons b).trans (List.Perm.swap a b rest)
    · exact List.Perm.refl _

theorem filter_insertTrack (v : Nat) (a : QueuedTrack) (l : List QueuedTrack) :
    (insertTrack a l).filter (fun t => t.votes == v) =
      if a.votes = v then a :: l.filter (fun t => t.votes == v)
      else l.filter (fun t => t.votes == v) := by
  induction l with
  | nil => by_cases h : a.votes = v <;> simp [insertTrack, h]
  | cons b rest ih =>
    simp only [insertTrack]
    split
    · rename_i hlt
      by_cases hb : b.votes = v
      · have ha : ¬a.votes = v := by omega
        simp [List.filter_cons, hb, ih, ha]
      · simp [List.filter_cons, hb, ih]
    · rename_i hge
      by_cases ha : a.votes = v <;> simp [List.filter_cons, ha]

theorem sortByVotesDesc_pairwise (l : List QueuedTrack) :
    (sortByVotesDesc l).Pairwise fun x y => y.votes ≤ x.votes := by
  induction l with
  | nil => simp [sortByVotesDesc]
  | cons a rest ih => exact pairwise_insertTrack a _ ih

theorem sortByVotesDesc_perm (l : List QueuedTrack) : (sortByVotesDesc l).Perm l := by
  induction l with
  | nil => exact List.Perm.refl _
  | cons a rest ih => exact (perm_insertTrack a _).trans (ih.cons a)

theorem sortByVotesDesc_filter (v : Nat) (l : List QueuedTrack) :
    (sortByVotesDesc l).filter (fun t => t.votes == v) =
      l.filter (fun t => t.votes == v) := by
  induction l with
  | nil => rfl
  | cons a rest ih =>
    simp only [sortByVotesDesc, filter_insertTrack, ih]
    by_cases h : a.votes = v <;> simp [List.filter_cons, h]

/-! ## `upvoteFirst` characterisation -/

theorem upvoteFirst_eq_none (sid : String) (l : List QueuedTrack)
    (h : ∀ t ∈ l, t.spotifyId ≠ sid) : upvoteFirst sid l = none := by
  induction l with
  | nil => rfl
  | cons t rest ih =>
    simp only [upvoteFirst]
    rw [if_neg (h t (List.mem_cons_self t rest))]
    rw [ih fun x hx => h x (List.mem_cons_of_mem t hx)]

theorem upvoteFirst_eq_some (sid : String) (l : List QueuedTrack)
    (h : ∃ t ∈ l, t.spotifyId = sid) :
    ∃ l1 t l2, l = l1 ++ t :: l2 ∧ (∀ u ∈ l1, u.spotifyId ≠ sid) ∧ t.spotifyId = sid ∧
      upvoteFirst sid l =
        some ({ t with votes := t.votes + 1 },
              l1 ++ { t with votes := t.votes + 1 } :: l2) := by
  induction l with
  | nil => simp at h
  | cons b rest ih =>
    by_cases hb : b.spotifyId = sid
    · refine ⟨[], b, rest, rfl, by simp, hb, ?_⟩
      simp [upvoteFirst, hb]
    · have h' : ∃ t ∈ rest, t.spotifyId = sid := by
        rcases h with ⟨t, ht, hts⟩
        rcases List.mem_cons.mp ht with rfl | ht
        · exact absurd hts hb
        · exact ⟨t, ht, hts⟩
      rcases ih h' with ⟨l1, t, l2, heq, hl1, hts, hup⟩
      refine ⟨b :: l1, t, l2, by rw [heq]; rfl, ?_, hts, ?_⟩
      · intro u hu
        rcases List.mem_cons.mp hu with rfl | hu
        · exact hb
        · exact hl1 u hu
      · simp only [upvoteFirst]
        rw [if_neg hb, hup]
        rfl

/-! ## Claim theorems -/

/-- C5: every read (`getQueue`, and `getQueueIfUpdated` when it returns a
state) delivers the stored tracks sorted by `votes` descending; the sort is a
permutation of the stored list; ties keep their stored relative order (the
sublist at each vote count is untouched); and the read leaves the store —
hence the stored insertion order — unchanged. -/
theorem c5_sorted_read :
    (∀ now store,
        (getQueue now store).1.tracks = sortByVotesDesc (stateTracks store) ∧
        (getQueue now store).1.lastUpdated = stateStamp store now ∧
        (getQueue now store).2 = store)
  ∧ (∀ since now store q, (getQueueIfUpdated since now store).1 = some q →
        q.tracks = sortByVotesDesc (stateTracks store))
  ∧ (∀ since now store, (getQueueIfUpdated since now store).2 = store)
  ∧ (∀ l : List QueuedTrack, (sortByVotesDesc l).Pairwise fun x y => y.votes ≤ x.votes)
  ∧ (∀ l : List QueuedTrack, (sortByVotesDesc l).Perm l)
  ∧ (∀ (l : List QueuedTrack) (v : Nat),
        (sortByVotesDesc l).filter (fun t => t.votes == v) =
          l.filter (fun t => t.votes == v)) := by
  refine ⟨?_, ?_, ?_, sortByVotesDesc_pairwise, sortByVotesDesc_perm,
    fun l v => sortByVotesDesc_filter v l⟩
  · intro now store
    refine ⟨?_, rfl, rfl⟩
    show sortByVotesDesc (getState store now).tracks = _
    rw [getState_tracks]
  · intro since now store q h
    simp only [getQueueIfUpdated] at h
    split at h
    · cases h
      rw [getState_tracks]
    · cases h
  · intro since now store
    simp only [getQueueIfUpdated]
    split <;> rfl

/-- C5 witness: on a concrete two-track store the returned state of
`getQueueIfUpdated` is the sorted stored list. -/
theorem c5_sorted_read_witness :
    (VotingQueueState.mk [sampleTrack "b" 2, sampleTrack "a" 0] 5).tracks =
      sortByVotesDesc
        (stateTracks (some (VotingQueueState.mk [sampleTrack "a" 0, sampleTrack "b" 2] 5))) :=
  c5_sorted_read.2.1 0 1 (some (VotingQueueState.mk [sampleTrack "a" 0, sampleTrack "b" 2] 5))
    (VotingQueueState.mk [sampleTrack "b" 2, sampleTrack "a" 0] 5) (by decide)

/-- C3: the call `getQueueIfUpdated since` returns `none` iff the stored stamp is
`≤ since`; whenever `since` is below the stored stamp it returns the sorted
state (in particular an empty queue with a fresh stamp still returns a state);
and every mutating operation that commits stamps `lastUpdated` with its call
time, so any `since` below it sees the new state. -/
theorem c3_change_detection :
    (∀ since now store,
        (getQueueIfUpdated since now store).1 = none ↔ stateStamp store now ≤ since)
  ∧ (∀ since now store, since < stateStamp store now →
        (getQueueIfUpdated since now store).1 =
          some { tracks := sortByVotesDesc (stateTracks store),
                 lastUpdated := stateStamp store now })
  ∧ (∀ since now T, since < T →
        (getQueueIfUpdated since now (some { tracks := [], lastUpdated := T })).1 =
          some { tracks := [], lastUpdated := T })
  ∧ (∀ t now store tr, (addTrack t now store).1 = some tr →
        stateStamp (addTrack t now store).2 0 = now)
  ∧ (∀ ts replaceAll now rand store,
        stateStamp (addTracks ts replaceAll now rand store).2 0 = now)
  ∧ (∀ sid now store, (removeTrack sid now store).1 = true →
        stateStamp (removeTrack sid now store).2 0 = now)
  ∧ (∀ ids now store, 0 < (removeTracks ids now store).1 →
        stateStamp (removeTracks ids now store).2 0 = now)
  ∧ (∀ sid now store u, (upvoteTrack sid now store).1 = some u →
        stateStamp (upvoteTrack sid now store).2 0 = now)
  ∧ (∀ now store, stateStamp (clearQueue now store) 0 = now) := by
  refine ⟨?_, ?_, ?_, ?_, ?_, ?_, ?_, ?_, fun now store => rfl⟩
  · intro since now store
    simp only [getQueueIfUpdated, stateStamp]
    split
    · rename_i h
      constructor
      · intro hc; cases hc
      · intro hle; omega
    · rename_i h
      constructor
      · intro _; omega
      · intro _; rfl
  · intro since now store h
    simp only [getQueueIfUpdated, stateStamp] at h ⊢
    rw [if_pos h, getState_tracks]
  · intro since now T h
    simp only [getQueueIfUpdated, getState]
    rw [if_pos (by simpa using h)]
    simp [sortByVotesDesc]
  · intro t now store tr h
    simp only [addTrack] at h ⊢
    split at h
    · cases h
    · split at h
      · cases h
      · rename_i h1 h2
        rw [if_neg h1, if_neg h2]
        rfl
  · intro ts replaceAll now rand store
    rfl
  · intro sid now store h
    simp only [removeTrack] at h ⊢
    split at h
    · rename_i hc
      rw [if_pos hc]
      rfl
    · simp at h
  · intro ids now store h
    simp only [removeTracks] at h ⊢
    split at h
    · rename_i hc
      rw [if_pos hc]
      rfl
    · rename_i hc
      exact absurd h hc
  · intro sid now store u h
    simp only [upvoteTrack] at h ⊢
    split at h
    · simp at h
    · rfl

/-- C3 witness: an empty queue whose stamp 7 exceeds the cursor 3 still
returns a state rather than `none`. -/
theorem c3_change_detection_witness :
    (getQueueIfUpdated 3 9 (some { tracks := [], lastUpdated := 7 })).1 =
      some { tracks := [], lastUpdated := 7 } :=
  c3_change_detection.2.2.1 3 9 7 (by decide)

/-- C4: on any store whose queue holds a track with the requested `spotifyId`,
`upvoteTrack` splits the stored list around the first such track, returns that
track with `votes` increased by exactly 1 and every other field unchanged, and
writes back the list in which only that entry was replaced — every other track
is untouched. -/
theorem c4_upvote_increment (sid : String) (now : Nat) (store : Option VotingQueueState)
    (h : ∃ t ∈ stateTracks store, t.spotifyId = sid) :
    ∃ l1 t l2,
      stateTracks store = l1 ++ t :: l2 ∧
      (∀ u ∈ l1, u.spotifyId ≠ sid) ∧ t.spotifyId = sid ∧
      (upvoteTrack sid now store).1 = some { t with votes := t.votes + 1 } ∧
      (upvoteTrack sid now store).2 =
        some { tracks := l1 ++ { t with votes := t.votes + 1 } :: l2,
               lastUpdated := now } := by
  rcases upvoteFirst_eq_some sid (stateTracks store) h with ⟨l1, t, l2, heq, hl1, hts, hup⟩
  refine ⟨l1, t, l2, heq, hl1, hts, ?_, ?_⟩ <;>
    · simp only [upvoteTrack, getState_tracks, hup]

/-- C4 witness: upvoting `"a"` in a two-track queue bumps only that track. -/
theorem c4_upvote_increment_witness :
    ∃ l1 t l2,
      stateTracks (some { tracks := [sampleTrack "a" 2, sampleTrack "b" 7], lastUpdated := 5 }) =
        l1 ++ t :: l2 ∧
      (∀ u ∈ l1, u.spotifyId ≠ "a") ∧ t.spotifyId = "a" ∧
      (upvoteTrack "a" 9
        (some { tracks := [sampleTrack "a" 2, sampleTrack "b" 7], lastUpdated := 5 })).1 =
        some { t with votes := t.votes + 1 } ∧
      (upvoteTrack "a" 9
        (some { tracks := [sampleTrack "a" 2, sampleTrack "b" 7], lastUpdated := 5 })).2 =
        some { tracks := l1 ++ { t with votes := t.votes + 1 } :: l2, lastUpdated := 9 } :=
  c4_upvote_increment "a" 9
    (some { tracks := [sampleTrack "a" 2, sampleTrack "b" 7], lastUpdated := 5 })
    ⟨sampleTrack "a" 2, by decide, by decide⟩

/-- C8: the operation `clearQueue` writes the empty list unconditionally from any store
(even an already-empty one), stamping `lastUpdated` with the call time, so two
successive calls each leave an empty queue, and with a strictly advancing
clock the second stamp is strictly greater than the first. -/
theorem c8_clear_twice (now1 now2 : Nat) (store : Option VotingQueueState)
    (h : now1 < now2) :
    clearQueue now1 store = some { tracks := [], lastUpdated := now1 } ∧
    clearQueue now2 (clearQueue now1 store) = some { tracks := [], lastUpdated := now2 } ∧
    stateTracks (clearQueue now1 store) = [] ∧
    stateTracks (clearQueue now2 (clearQueue now1 store)) = [] ∧
    stateStamp (clearQueue now1 store) 0 <
      stateStamp (clearQueue now2 (clearQueue now1 store)) 0 :=
  ⟨rfl, rfl, rfl, rfl, h⟩

/-- C8 witness: clearing at times 3 then 4 from a non-empty store. -/
theorem c8_clear_twice_witness :
    clearQueue 3 (some { tracks := [sampleTrack "a" 2], lastUpdated := 1 }) =
      some { tracks := [], lastUpdated := 3 } ∧
    clearQueue 4 (clearQueue 3 (some { tracks := [sampleTrack "a" 2], lastUpdated := 1 })) =
      some { tracks := [], lastUpdated := 4 } ∧
    stateTracks (clearQueue 3 (some { tracks := [sampleTrack "a" 2], lastUpdated := 1 })) = [] ∧
    stateTracks
      (clearQueue 4 (clearQueue 3 (some { tracks := [sampleTrack "a" 2], lastUpdated := 1 }))) =
      [] ∧
    stateStamp (clearQueue 3 (some { tracks := [sampleTrack "a" 2], lastUpdated := 1 })) 0 <
      stateStamp
        (clearQueue 4 (clearQueue 3 (some { tracks := [sampleTrack "a" 2], lastUpdated := 1 })))
        0 :=
  c8_clear_twice 3 4 (some { tracks := [sampleTrack "a" 2], lastUpdated := 1 }) (by decide)

/-! ## Negative-result helpers shared by several claims -/

theorem removeTrack_absent (sid : String) (now : Nat) (store : Option VotingQueueState)
    (h : ∀ t ∈ stateTracks store, t.spotifyId ≠ sid) :
    removeTrack sid now store = (false, store) := by
  have hself : (stateTracks store).filter (fun t => t.spotifyId != sid) = stateTracks store :=
    List.filter_eq_self.mpr fun u hu => bne_iff_ne.mpr (h u hu)
  simp only [removeTrack, getState_tracks]
  rw [hself, if_neg fun hne => hne rfl]

theorem removeTracks_none (ids : List String) (now : Nat) (store : Option VotingQueueState)
    (h : ∀ t ∈ stateTracks store, t.id ∉ ids) :
    removeTracks ids now store = (0, store) := by
  have hself : (stateTracks store).filter (fun t => !(ids.contains t.id)) = stateTracks store :=
    List.filter_eq_self.mpr fun u hu => by simp [h u hu]
  simp only [removeTracks, getState_tracks]
  rw [hself, Nat.sub_self]
  rw [if_neg (lt_irrefl 0)]

theorem upvoteTrack_absent (sid : String) (now : Nat) (store : Option VotingQueueState)
    (h : ∀ t ∈ stateTracks store, t.spotifyId ≠ sid) :
    upvoteTrack sid now store = (none, store) := by
  simp only [upvoteTrack, getState_tracks, upvoteFirst_eq_none sid _ h]

/-- Decompose a list at the first track carrying the given `spotifyId`. -/
theorem exists_first_bySpotifyId {sid : String} {l : List QueuedTrack}
    (h : ∃ t ∈ l, t.spotifyId = sid) :
    ∃ l1 t l2, l = l1 ++ t :: l2 ∧ (∀ u ∈ l1, u.spotifyId ≠ sid) ∧ t.spotifyId = sid := by
  induction l with
  | nil => simp at h
  | cons b rest ih =>
    by_cases hb : b.spotifyId = sid
    · exact ⟨[], b, rest, rfl, by simp, hb⟩
    · have h' : ∃ t ∈ rest, t.spotifyId = sid := by
        rcases h with ⟨t, ht, hts⟩
        rcases List.mem_cons.mp ht with rfl | ht
        · exact absurd hts hb
        · exact ⟨t, ht, hts⟩
      rcases ih h' with ⟨l1, t, l2, heq, hl1, hts⟩
      refine ⟨b :: l1, t, l2, by rw [heq]; rfl, ?_, hts⟩
      intro u hu
      rcases List.mem_cons.mp hu with rfl | hu
      · exact hb
      · exact hl1 u hu

/-- Rewriting `removeTracks` as one equation (count, then conditional write). -/
theorem removeTracks_eq (ids : List String) (now : Nat) (store : Option VotingQueueState) :
    removeTracks ids now store =
      ((stateTracks store).length -
         ((stateTracks store).filter fun t => !(ids.contains t.id)).length,
       if 0 < (stateTracks store).length -
            ((stateTracks store).filter fun t => !(ids.contains t.id)).length then
         some { tracks := (stateTracks store).filter fun t => !(ids.contains t.id),
                lastUpdated := now }
       else store) := by
  simp only [removeTracks, getState_tracks]
  split
  · rfl
  · rfl

/-- C6 counterexample: on a queue state holding two entries with `spotifyId`
`"dup"`, `removeTrack "dup"` filters out both, so it does not remove at most
one entry for *every* queue state. -/
theorem c6_counterexample :
    ¬((stateTracks (some { tracks := [dupTrackA, dupTrackB], lastUpdated := 0 })).length ≤
       (stateTracks (removeTrack "dup" 9
          (some { tracks := [dupTrackA, dupTrackB], lastUpdated := 0 })).2).length + 1) := by
  decide

/-- C6 (amended with the uniqueness invariant every reachable state enjoys):
if the stored tracks carry pairwise distinct `spotifyId`s, then `removeTrack`
removes exactly the unique matching entry and returns `true` when one exists,
and is a no-op returning `false` (store untouched) when none does. -/
theorem c6_remove_single (sid : String) (now : Nat) (store : Option VotingQueueState)
    (hU : uniqueBySpotifyId (stateTracks store)) :
    ((∃ t ∈ stateTracks store, t.spotifyId = sid) →
      ∃ l1 t l2, stateTracks store = l1 ++ t :: l2 ∧ t.spotifyId = sid ∧
        (∀ u ∈ l1, u.spotifyId ≠ sid) ∧ (∀ u ∈ l2, u.spotifyId ≠ sid) ∧
        removeTrack sid now store = (true, some { tracks := l1 ++ l2, lastUpdated := now }))
  ∧ ((∀ t ∈ stateTracks store, t.spotifyId ≠ sid) →
      removeTrack sid now store = (false, store)) := by
  refine ⟨?_, removeTrack_absent sid now store⟩
  intro h
  rcases exists_first_bySpotifyId h with ⟨l1, t, l2, heq, hl1, hts⟩
  have hl2 : ∀ u ∈ l2, u.spotifyId ≠ sid := by
    intro u hu husid
    rw [heq] at hU
    unfold uniqueBySpotifyId at hU
    rw [List.map_append, List.map_cons] at hU
    rcases List.nodup_append.mp hU with ⟨_, hcons, _⟩
    rcases List.nodup_cons.mp hcons with ⟨hnotin, _⟩
    apply hnotin
    rw [hts, ← husid]
    exact List.mem_map_of_mem _ hu
  have hkept : (stateTracks store).filter (fun u => u.spotifyId != sid) = l1 ++ l2 := by
    rw [heq, List.filter_append, List.filter_cons]
    rw [if_neg (by simp [hts])]
    rw [List.filter_eq_self.mpr fun u hu => bne_iff_ne.mpr (hl1 u hu),
        List.filter_eq_self.mpr fun u hu => bne_iff_ne.mpr (hl2 u hu)]
  have hlen : ((stateTracks store).filter fun u => u.spotifyId != sid).length ≠
      (stateTracks store).length := by
    rw [hkept, heq]
    simp
  refine ⟨l1, t, l2, heq, hts, hl1, hl2, ?_⟩
  simp only [removeTrack, getState_tracks]
  rw [if_pos hlen, hkept]

/-- C6 witness: removing an absent `spotifyId` from a duplicate-free store is
a no-op returning `false`. -/
theorem c6_remove_single_witness :
    removeTrack "zzz" 9 (some { tracks := [sampleTrack "a" 2], lastUpdated := 5 }) =
      (false, some { tracks := [sampleTrack "a" 2], lastUpdated := 5 }) :=
  (c6_remove_single "zzz" 9 (some { tracks := [sampleTrack "a" 2], lastUpdated := 5 })
    (by unfold uniqueBySpotifyId; decide)).2 (by decide)

/-- C7: the operation `removeTracks` matches entries by the internal `id` field: the count
returned is the number of stored entries whose `id` is listed, exactly the
matching entries disappear (membership in the resulting store is membership
in the old store minus the listed `id`s), the store is written once with the
fresh `lastUpdated` exactly when the count is positive, and is untouched when
the count is zero. -/
theorem c7_remove_bulk (ids : List String) (now : Nat) (store : Option VotingQueueState) :
    (removeTracks ids now store).1 =
      ((stateTracks store).filter fun t => ids.contains t.id).length
  ∧ (∀ t, t ∈ stateTracks (removeTracks ids now store).2 ↔
        t ∈ stateTracks store ∧ t.id ∉ ids)
  ∧ (0 < (removeTracks ids now store).1 →
        (removeTracks ids now store).2 =
          some { tracks := (stateTracks store).filter fun t => !(ids.contains t.id),
                 lastUpdated := now })
  ∧ ((removeTracks ids now store).1 = 0 → (removeTracks ids now store).2 = store)
  ∧ (0 < (removeTracks ids now store).1 ↔ ∃ t ∈ stateTracks store, t.id ∈ ids) := by
  have hsum : (stateTracks store).length =
      ((stateTracks store).filter fun t => ids.contains t.id).length +
        ((stateTracks store).filter fun t => !(ids.contains t.id)).length :=
    List.length_eq_length_filter_add _
  have hle : ((stateTracks store).filter fun t => !(ids.contains t.id)).length ≤
      (stateTracks store).length :=
    (List.filter_sublist _).length_le
  have h1 : (removeTracks ids now store).1 =
      ((stateTracks store).filter fun t => ids.contains t.id).length := by
    rw [removeTracks_eq]
    show (stateTracks store).length - _ = _
    omega
  refine ⟨h1, ?_, ?_, ?_, ?_⟩
  · intro t
    rw [removeTracks_eq]
    show t ∈ stateTracks (if _ then _ else _) ↔ _
    split
    · rename_i hpos
      rw [stateTracks_some]
      simp [List.mem_filter]
    · rename_i hpos
      have hlen : ((stateTracks store).filter fun u => !(ids.contains u.id)).length =
          (stateTracks store).length := by omega
      have hself := (List.filter_sublist (l := stateTracks store)
        (p := fun u => !(ids.contains u.id))).eq_of_length hlen
      constructor
      · intro ht
        refine ⟨ht, fun hmem => ?_⟩
        have hall := List.filter_eq_self.mp hself t ht
        simp [hmem] at hall
      · exact fun hp => hp.1
  · intro hpos
    rw [h1] at hpos
    rw [removeTracks_eq]
    show (if _ then _ else _) = _
    rw [if_pos (by omega)]
  · intro hzero
    rw [h1] at hzero
    rw [removeTracks_eq]
    show (if _ then _ else _) = _
    rw [if_neg (by omega)]
  · rw [h1, List.length_pos_iff_exists_mem]
    constructor
    · rintro ⟨a, ha⟩
      rcases List.mem_filter.mp ha with ⟨hmem, hid⟩
      exact ⟨a, hmem, by simpa using hid⟩
    · rintro ⟨a, ha, hid⟩
      exact ⟨a, List.mem_filter.mpr ⟨ha, by simpa using hid⟩⟩

/-- C7 witness: removing by internal `id` `"a-id"` from a two-track store
removes exactly that entry and stamps `lastUpdated` with the call time. -/
theorem c7_remove_bulk_witness :
    (removeTracks ["a-id"] 9
        (some { tracks := [sampleTrack "a" 2, sampleTrack "b" 0], lastUpdated := 5 })).2 =
      some { tracks := [sampleTrack "b" 0], lastUpdated := 9 } :=
  (c7_remove_bulk ["a-id"] 9
    (some { tracks := [sampleTrack "a" 2, sampleTrack "b" 0], lastUpdated := 5 })).2.2.1
    (by decide)

/-- C10: whenever an operation returns its typed negative result — `addTrack`
on a duplicate `spotifyId` or a full queue, `removeTrack` or `upvoteTrack` on
an absent `spotifyId`, `removeTracks` matching nothing — the store, tracks and
`lastUpdated` included, is returned unchanged and no write happens. -/
theorem c10_negative_no_write :
    (∀ t now store, (∃ u ∈ stateTracks store, u.spotifyId = t.spotifyId) →
        addTrack t now store = (none, store))
  ∧ (∀ t now store, 30 ≤ (stateTracks store).length →
        addTrack t now store = (none, store))
  ∧ (∀ sid now store, (∀ u ∈ stateTracks store, u.spotifyId ≠ sid) →
        removeTrack sid now store = (false, store))
  ∧ (∀ ids now store, (∀ u ∈ stateTracks store, u.id ∉ ids) →
        removeTracks ids now store = (0, store))
  ∧ (∀ sid now store, (∀ u ∈ stateTracks store, u.spotifyId ≠ sid) →
        upvoteTrack sid now store = (none, store)) := by
  refine ⟨?_, ?_, removeTrack_absent, removeTracks_none, upvoteTrack_absent⟩
  · intro t now store h
    have hany : ((getState store now).tracks.any fun u => u.spotifyId == t.spotifyId) = true := by
      rw [List.any_eq_true]
      rcases h with ⟨u, hu, hus⟩
      exact ⟨u, by rwa [getState_tracks], by simp [hus]⟩
    simp only [addTrack]
    rw [if_pos hany]
  · intro t now store h
    simp only [addTrack]
    split
    · rfl
    · rw [if_pos (show 30 ≤ (getState store now).tracks.length by rwa [getState_tracks])]

/-- C10 witness: upvoting an absent `spotifyId` returns `null` and leaves the
store untouched. -/
theorem c10_negative_no_write_witness :
    upvoteTrack "zzz" 9 (some { tracks := [sampleTrack "a" 2], lastUpdated := 5 }) =
      (none, some { tracks := [sampleTrack "a" 2], lastUpdated := 5 }) :=
  c10_negative_no_write.2.2.2.2 "zzz" 9
    (some { tracks := [sampleTrack "a" 2], lastUpdated := 5 }) (by decide)

/-! ## Loop invariants of the bulk add -/

theorem addTracksGo_fst_eq (now : Nat) (rand : Nat → String) (inputs : List TrackInput) :
    ∀ (k : Nat) (tracks : List QueuedTrack) (existing : List String),
      (addTracksGo now rand inputs k tracks existing).1 =
        tracks ++ (addTracksGo now rand inputs k tracks existing).2 := by
  induction inputs with
  | nil => intro k tracks existing; simp [addTracksGo]
  | cons t rest ih =>
    intro k tracks existing
    simp only [addTracksGo]
    split
    · simp
    · split
      · exact ih k tracks existing
      · rw [ih (k + 1)]
        simp

theorem addTracksGo_length_le (now : Nat) (rand : Nat → String) (inputs : List TrackInput) :
    ∀ (k : Nat) (tracks : List QueuedTrack) (existing : List String),
      tracks.length ≤ 30 →
      (addTracksGo now rand inputs k tracks existing).1.length ≤ 30 := by
  induction inputs with
  | nil => intro k tracks existing h; simpa [addTracksGo] using h
  | cons t rest ih =>
    intro k tracks existing h
    simp only [addTracksGo]
    split
    · simpa using h
    · split
      · exact ih k tracks existing h
      · rename_i hcap hdup
        apply ih (k + 1)
        simp only [List.length_append, List.length_cons, List.length_nil]
        omega

/-- Appending one track whose `spotifyId` is fresh keeps the ids `Nodup`. -/
theorem uniqueBySpotifyId_append_fresh {l : List QueuedTrack} {nt : QueuedTrack}
    (h : uniqueBySpotifyId l) (hfresh : ∀ u ∈ l, u.spotifyId ≠ nt.spotifyId) :
    uniqueBySpotifyId (l ++ [nt]) := by
  unfold uniqueBySpotifyId at h ⊢
  rw [List.map_append, List.nodup_append]
  refine ⟨h, by simp, ?_⟩
  intro s hs hmem
  rcases List.mem_map.mp hs with ⟨u, hu, rfl⟩
  simp at hmem
  exact hfresh u hu hmem

theorem addTracksGo_fst_nodup (now : Nat) (rand : Nat → String) (inputs : List TrackInput) :
    ∀ (k : Nat) (tracks : List QueuedTrack) (existing : List String),
      uniqueBySpotifyId tracks →
      (∀ s ∈ tracks.map (fun t => t.spotifyId), s ∈ existing) →
      uniqueBySpotifyId (addTracksGo now rand inputs k tracks existing).1 := by
  induction inputs with
  | nil => intro k tracks existing h _; simpa [addTracksGo] using h
  | cons t rest ih =>
    intro k tracks existing h hsub
    simp only [addTracksGo]
    split
    · simpa using h
    · split
      · exact ih k tracks existing h hsub
      · rename_i hcap hdup
        apply ih (k + 1)
        · refine uniqueBySpotifyId_append_fresh h ?_
          intro u hu heq
          simp only [mkQueuedTrack] at heq
          exact hdup (heq ▸ hsub u.spotifyId (List.mem_map_of_mem _ hu))
        · intro s hs
          rw [List.map_append] at hs
          rcases List.mem_append.mp hs with hs | hs
          · exact List.mem_cons_of_mem _ (hsub s hs)
          · simp [mkQueuedTrack] at hs
            rw [hs]
            exact List.mem_cons_self _ _

theorem addTracksGo_added_fresh (now : Nat) (rand : Nat → String) (inputs : List TrackInput) :
    ∀ (k : Nat) (tracks : List QueuedTrack) (existing E : List String),
      (∀ s ∈ E, s ∈ existing) →
      ∀ a ∈ (addTracksGo now rand inputs k tracks existing).2, a.spotifyId ∉ E := by
  induction inputs with
  | nil => intro k tracks existing E _ a ha; simp [addTracksGo] at ha
  | cons t rest ih =>
    intro k tracks existing E hE a ha
    simp only [addTracksGo] at ha
    split at ha
    · simp at ha
    · split at ha
      · exact ih k tracks existing E hE a ha
      · rename_i hcap hdup
        rcases List.mem_cons.mp ha with rfl | ha
        · intro hmem
          exact hdup (hE _ hmem)
        · exact ih (k + 1) _ (t.spotifyId :: existing) E
            (fun s hs => List.mem_cons_of_mem _ (hE s hs)) a ha

theorem addTracksGo_added_nodup (now : Nat) (rand : Nat → String) (inputs : List TrackInput) :
    ∀ (k : Nat) (tracks : List QueuedTrack) (existing : List String),
      ((addTracksGo now rand inputs k tracks existing).2.map (fun t => t.spotifyId)).Nodup := by
  induction inputs with
  | nil => intro k tracks existing; simp [addTracksGo]
  | cons t rest ih =>
    intro k tracks existing
    simp only [addTracksGo]
    split
    · simp
    · split
      · exact ih k tracks existing
      · rename_i hcap hdup
        simp only [List.map_cons]
        rw [List.nodup_cons]
        refine ⟨?_, ih (k + 1) _ _⟩
        intro hmem
        rcases List.mem_map.mp hmem with ⟨a, ha, haeq⟩
        have hfresh := addTracksGo_added_fresh now rand rest (k + 1) _
          (t.spotifyId :: existing) [t.spotifyId]
          (fun s hs => by
            rcases List.mem_singleton.mp hs with rfl
            exact List.mem_cons_self _ _) a ha
        apply hfresh
        rw [haeq]
        simp [mkQueuedTrack]

/-- Rewriting `addTracks` as one equation over the loop. -/
theorem addTracks_eq (ts : List TrackInput) (replaceAll : Bool) (now : Nat)
    (rand : Nat → String) (store : Option VotingQueueState) :
    addTracks ts replaceAll now rand store =
      ((addTracksGo now rand ts 0 (if replaceAll then [] else stateTracks store)
          ((if replaceAll then [] else stateTracks store).map fun t => t.spotifyId)).2,
       some (VotingQueueState.mk
          (addTracksGo now rand ts 0 (if replaceAll then [] else stateTracks store)
            ((if replaceAll then [] else stateTracks store).map fun t => t.spotifyId)).1
          now)) := by
  simp only [addTracks, getState_tracks]

theorem addTrack_preserves_unique (t : TrackInput) (now : Nat) (store : Option VotingQueueState)
    (h : uniqueBySpotifyId (stateTracks store)) :
    uniqueBySpotifyId (stateTracks (addTrack t now store).2) := by
  simp only [addTrack, getState_tracks]
  split
  · exact h
  · split
    · exact h
    · rename_i hdup hcap
      rw [List.any_eq_true] at hdup
      refine uniqueBySpotifyId_append_fresh h ?_
      intro u hu heq
      simp only [mkQueuedTrack] at heq
      exact hdup ⟨u, hu, by simp [heq]⟩

theorem addTrack_length_le (t : TrackInput) (now : Nat) (store : Option VotingQueueState)
    (h : (stateTracks store).length ≤ 30) :
    (stateTracks (addTrack t now store).2).length ≤ 30 := by
  simp only [addTrack, getState_tracks]
  split
  · exact h
  · split
    · exact h
    · rename_i hdup hcap
      show ((stateTracks store) ++ _).length ≤ 30
      simp only [List.length_append, List.length_cons, List.length_nil]
      omega

theorem addTracks_preserves_unique (ts : List TrackInput) (replaceAll : Bool) (now : Nat)
    (rand : Nat → String) (store : Option VotingQueueState)
    (h : uniqueBySpotifyId (stateTracks store)) :
    uniqueBySpotifyId (stateTracks (addTracks ts replaceAll now rand store).2) := by
  rw [addTracks_eq]
  dsimp only [stateTracks_some]
  apply addTracksGo_fst_nodup
  · cases replaceAll
    · simpa using h
    · simp [uniqueBySpotifyId]
  · intro s hs
    exact hs

theorem addTracks_length_le (ts : List TrackInput) (replaceAll : Bool) (now : Nat)
    (rand : Nat → String) (store : Option VotingQueueState)
    (h : (stateTracks store).length ≤ 30) :
    (stateTracks (addTracks ts replaceAll now rand store).2).length ≤ 30 := by
  rw [addTracks_eq]
  dsimp only [stateTracks_some]
  apply addTracksGo_length_le
  cases replaceAll
  · simpa using h
  · simp

theorem runAdmissions_preserve (P : Option VotingQueueState → Prop)
    (hstep : ∀ store op, P store → P (applyAdmission store op)) :
    ∀ (ops : List AdmissionOp) (store : Option VotingQueueState),
      P store → P (runAdmissions ops store) := by
  intro ops
  induction ops with
  | nil => intro store h; exact h
  | cons op rest ih =>
    intro store h
    exact ih (applyAdmission store op) (hstep store op h)

/-- C1: starting from the absent/empty store, any sequence of `addTrack` and
`addTracks` calls leaves at most one entry per `spotifyId`; `addTrack` returns
`null` when the `spotifyId` is already queued; and the tracks admitted by one
`addTracks` call carry pairwise distinct `spotifyId`s, none of which was in
the (non-replaced) queue before the call. -/
theorem c1_uniqueness :
    (∀ ops : List AdmissionOp, uniqueBySpotifyId (stateTracks (runAdmissions ops none)))
  ∧ (∀ t now store, (∃ u ∈ stateTracks store, u.spotifyId = t.spotifyId) →
      (addTrack t now store).1 = none)
  ∧ (∀ ts replaceAll now rand store,
      (((addTracks ts replaceAll now rand store).1.map fun a => a.spotifyId).Nodup))
  ∧ (∀ ts now rand store, ∀ a ∈ (addTracks ts false now rand store).1,
      ∀ u ∈ stateTracks store, a.spotifyId ≠ u.spotifyId) := by
  refine ⟨?_, ?_, ?_, ?_⟩
  · intro ops
    apply runAdmissions_preserve (fun store => uniqueBySpotifyId (stateTracks store))
    · intro store op h
      cases op with
      | one t now => exact addTrack_preserves_unique t now store h
      | many ts replaceAll now rand =>
        exact addTracks_preserves_unique ts replaceAll now rand store h
    · simp [uniqueBySpotifyId, stateTracks_none]
  · intro t now store h
    have hany : ((getState store now).tracks.any fun u => u.spotifyId == t.spotifyId) = true := by
      rw [List.any_eq_true]
      rcases h with ⟨u, hu, hus⟩
      exact ⟨u, by rwa [getState_tracks], by simp [hus]⟩
    simp only [addTrack]
    rw [if_pos hany]
  · intro ts replaceAll now rand store
    rw [addTracks_eq]
    exact addTracksGo_added_nodup now rand ts 0 _ _
  · intro ts now rand store a ha u hu heq
    simp only [addTracks, getState_tracks, Bool.false_eq_true, if_false] at ha
    have hfresh := addTracksGo_added_fresh now rand ts 0 (stateTracks store)
      ((stateTracks store).map fun t => t.spotifyId)
      ((stateTracks store).map fun t => t.spotifyId)
      (fun s hs => hs) a ha
    apply hfresh
    rw [heq]
    exact List.mem_map_of_mem _ hu

/-- C1 witness: re-adding the already queued `spotifyId` `"a"` is rejected. -/
theorem c1_uniqueness_witness :
    (addTrack (sampleInput "a") 7 (some { tracks := [sampleTrack "a" 2], lastUpdated := 5 })).1 =
      none :=
  c1_uniqueness.2.1 (sampleInput "a") 7 (some { tracks := [sampleTrack "a" 2], lastUpdated := 5 })
    ⟨sampleTrack "a" 2, by decide, by decide⟩

/-- C2: starting from the absent/empty store, no admission sequence pushes
the queue beyond 30 tracks; at capacity `addTrack` rejects (returning `null`)
without touching the store, so nothing is evicted; `addTracks` keeps the queue
within capacity; and the final list of an `addTracks` call is exactly the kept
prefix of the old state extended by the returned admitted tracks. -/
theorem c2_capacity :
    (∀ ops : List AdmissionOp, (stateTracks (runAdmissions ops none)).length ≤ 30)
  ∧ (∀ t now store, 30 ≤ (stateTracks store).length →
      addTrack t now store = (none, store))
  ∧ (∀ ts replaceAll now rand store, (stateTracks store).length ≤ 30 →
      (stateTracks (addTracks ts replaceAll now rand store).2).length ≤ 30)
  ∧ (∀ ts replaceAll now rand store,
      stateTracks (addTracks ts replaceAll now rand store).2 =
        (if replaceAll then [] else stateTracks store) ++
          (addTracks ts replaceAll now rand store).1) := by
  refine ⟨?_, ?_, addTracks_length_le, ?_⟩
  · intro ops
    apply runAdmissions_preserve (fun store => (stateTracks store).length ≤ 30)
    · intro store op h
      cases op with
      | one t now => exact addTrack_length_le t now store h
      | many ts replaceAll now rand =>
        exact addTracks_length_le ts replaceAll now rand store h
    · simp [stateTracks_none]
  · intro t now store h
    simp only [addTrack]
    split
    · rfl
    · rw [if_pos (show 30 ≤ (getState store now).tracks.length by rwa [getState_tracks])]
  · intro ts replaceAll now rand store
    rw [addTracks_eq]
    exact addTracksGo_fst_eq now rand ts 0 _ _

/-- C2 witness: at 30 stored tracks, adding a distinct 31st is rejected and
the store is returned unchanged. -/
theorem c2_capacity_witness :
    addTrack (sampleInput "extra") 7 (some { tracks := fullTracks, lastUpdated := 5 }) =
      (none, some { tracks := fullTracks, lastUpdated := 5 }) :=
  c2_capacity.2.1 (sampleInput "extra") 7 (some { tracks := fullTracks, lastUpdated := 5 })
    (by decide)

/-- C9 counterexample: the route `POST /api/queue` with `tracks: []` (an empty array is
truthy in JavaScript) is not rejected: it reaches `addTracks`, which writes
the state back with a fresh `lastUpdated`, so the store is changed. -/
theorem c9_counterexample :
    (postQueue (QueuePostBody.withTracks [] false) 10 (fun _ => "x")
        (some { tracks := [sampleTrack "a" 2], lastUpdated := 5 })).2 ≠
      some { tracks := [sampleTrack "a" 2], lastUpdated := 5 } := by
  decide

/-- C9 (amended): only the bulk-remove route validates empty input — a
missing, non-array or empty `trackIds` is rejected with 400 before
`removeTracks` runs, leaving the store untouched.  The bulk-add route accepts
an empty `tracks` array: it admits nothing but still performs a Store write
that bumps `lastUpdated` to the call time (and, with `replaceAll`, still
clears the queue). -/
theorem c9_empty_bulk :
    (∀ now store, postQueueRemove none now store = (400, store))
  ∧ (∀ now store, postQueueRemove (some []) now store = (400, store))
  ∧ (∀ replaceAll now rand store,
      postQueue (QueuePostBody.withTracks [] replaceAll) now rand store =
        (200, some (VotingQueueState.mk
          (if replaceAll then [] else stateTracks store) now))) := by
  refine ⟨fun now store => rfl, fun now store => rfl, ?_⟩
  intro replaceAll now rand store
  simp only [postQueue, addTracks, addTracksGo, getState_tracks]
